import Mathlib

/-!
# audioclass `samples` command: a shallow embedding of `src/samples/main.go`

The Go program reads labelled audio samples, optionally downsamples, augments
and pads them (PCM mode) or converts them to cepstral coefficients (MFCC mode),
and sends one string per sample to a printer.

Conventions of the embedding:

* a Go slice is a `List`; the element type `α` stands for `float64` (no float
  arithmetic is done by this file, elements are only moved, so `α` is abstract);
  the capacity of a slice is not modelled;
* `make` and `append` panic when the slice they must produce exceeds `maxAlloc`
  bytes, the fixed cap of the runtime on one allocation; running out of the
  memory really available below that cap is not modelled;
* a Go `int` is an `Int` in the range `minInt .. maxInt` (64-bit platforms),
  every arithmetic operation wraps around through `wrapInt`;
* a run-time panic is an `Except.error` carrying a `GoPanic`;
* library routines the program only calls (`strconv.FormatFloat`,
  `audioset.Augment`, `mfcc.MFCC`, `rand.Perm`, `Sample.Read`) are parameters.
-/

namespace Audioclass

universe u

/-! ## Go machine integers and slices -/

/-- Run-time panics of the Go program that the embedding tracks. -/
inductive GoPanic where
  | divideByZero
  | makeLenOutOfRange
  | growsliceLenOutOfRange
  | indexOutOfRange
  deriving DecidableEq

/-- Smallest value of a 64-bit Go `int`. -/
def minInt : Int := -9223372036854775808

/-- Largest value of a 64-bit Go `int`. -/
def maxInt : Int := 9223372036854775807

/-- Two's complement wrap-around of a mathematical integer into the Go `int` range. -/
def wrapInt (x : Int) : Int := (x + 9223372036854775808) % 18446744073709551616 - 9223372036854775808

/-- Go `a + b` on `int`. -/
def goAdd (a b : Int) : Int := wrapInt (a + b)

/-- Go `a - b` on `int`. -/
def goSub (a b : Int) : Int := wrapInt (a - b)

/-- Go `a * b` on `int`. -/
def goMul (a b : Int) : Int := wrapInt (a * b)

/-- Go `a / b` on `int`: truncated division, panics on a zero divisor. -/
def goDiv (a b : Int) : Except GoPanic Int :=
  if b = 0 then .error .divideByZero else .ok (wrapInt (Int.tdiv a b))

/-- Go `a % b` on `int`: remainder of truncated division, panics on a zero divisor. -/
def goRem (a b : Int) : Except GoPanic Int :=
  if b = 0 then .error .divideByZero else .ok (Int.tmod a b)

/-- Go `len(data)`. -/
def goLen {α : Type u} (data : List α) : Int := (data.length : Int)

/-- Go `data[i]`: panics when `i` is negative or not below `len(data)`. -/
def goIndex {α : Type u} (data : List α) (i : Int) : Except GoPanic α :=
  if i < 0 then .error .indexOutOfRange
  else
    match data.get? i.toNat with
    | some v => .ok v
    | none => .error .indexOutOfRange

/-- Size in bytes of a `float64`. -/
def float64Size : Int := 8

/-- The cap of the Go runtime on the size in bytes of one allocation
(`maxAlloc`, `2^48` on 64-bit platforms such as linux/amd64). -/
def maxAlloc : Int := 281474976710656

/-- Go `make([]float64, n)`: `n` zero values. As `makeslice` of the runtime it
panics on a negative length and on a length whose size in bytes exceeds
`maxAlloc` (running out of the memory really available below that cap is not
modelled). -/
def goMake {α : Type u} (zero : α) (n : Int) : Except GoPanic (List α) :=
  if n < 0 ∨ maxAlloc < float64Size * n then .error .makeLenOutOfRange
  else .ok (List.replicate n.toNat zero)

/-- Go `append(data, more...)` on `[]float64`. A slice is modelled by its
elements, not by its capacity, so the size check of the runtime (`growslice`)
is made on the length the result must hold: it panics when that many values
exceed `maxAlloc` bytes (spare capacity the runtime may add, and running out of
the memory really available, are not modelled). -/
def goAppend {α : Type u} (data more : List α) : Except GoPanic (List α) :=
  if maxAlloc < float64Size * (goLen data + goLen more) then .error .growsliceLenOutOfRange
  else .ok (data ++ more)

/-! ## `downsample` -/

/-- The loop `for i := range res` of `downsample`, body `res[i] = data[i*stride]`,
started at index `i` with `fuel` iterations left. -/
def downsampleLoop {α : Type u} (data : List α) (stride : Int) :
    Nat → Nat → List α → Except GoPanic (List α)
  | 0, _, res => .ok res
  | fuel + 1, i, res =>
    match goIndex data (goMul (i : Int) stride) with
    | .error p => .error p
    | .ok v => downsampleLoop data stride fuel (i + 1) (res.set i v)

/-- Length of the slice `downsample` allocates: `(len(data)+(stride-1))/stride`. -/
def downsampleLen {α : Type u} (data : List α) (stride : Int) : Except GoPanic Int :=
  goDiv (goAdd (goLen data) (goSub stride 1)) stride

/-- Embedding of `downsample(data, stride)`. -/
def downsample {α : Type u} (zero : α) (data : List α) (stride : Int) :
    Except GoPanic (List α) :=
  if stride = 1 then .ok data
  else
    match downsampleLen data stride with
    | .error p => .error p
    | .ok n =>
      match goMake zero n with
      | .error p => .error p
      | .ok res => downsampleLoop data stride res.length 0 res

/-! ## The padding step of PCM mode -/

/-- The alignment step of the worker (PCM branch):
when `len(data)%align != 0`, `data = append(data, make([]float64, align-(len(data)%align))...)`. -/
def padStep {α : Type u} (zero : α) (data : List α) (align : Int) : Except GoPanic (List α) :=
  match goRem (goLen data) align with
  | .error p => .error p
  | .ok r =>
    if r ≠ 0 then
      match goMake zero (goSub align r) with
      | .error p => .error p
      | .ok padding => goAppend data padding
    else .ok data

/-! ## Output formatting -/

/-- Go `strings.Join(elems, sep)`. -/
def stringsJoin : List String → String → String
  | [], _ => ""
  | [a], _ => a
  | a :: b :: rest, sep => a ++ sep ++ stringsJoin (b :: rest) sep

/-- Embedding of `floatsToStr`; `formatFloat` stands for
`strconv.FormatFloat(x, 'f', -1, 32)`. -/
def floatsToStr {α : Type u} (formatFloat : α → String) (data : List α) : String :=
  stringsJoin (data.foldl (fun parts x => parts ++ [formatFloat x]) []) " "

/-- A dataset sample: its class labels and the outcome of `sample.Read()`,
either an error or the decoded waveform. -/
structure Sample (ε : Type) (α : Type u) where
  Classes : List String
  Read : Except ε (List α)

/-- The inner loop of `classesToStr`: scan the labels of the sample for `cls`,
stopping at the first match. -/
def classPresent (cls : String) : List String → Bool
  | [] => false
  | x :: xs => if x = cls then true else classPresent cls xs

/-- Embedding of `classesToStr(classes, sample)`. -/
def classesToStr {ε : Type} {α : Type u} (classes : List String) (sample : Sample ε α) : String :=
  stringsJoin
    (classes.foldl
      (fun vec cls => if classPresent cls sample.Classes then vec ++ ["1"] else vec ++ ["0"]) [])
    " "

/-! ## `mfccStream` -/

/-- The loop of `mfccStream`: append every coefficient frame the MFCC source
yields until it reports an error (the end of the frames). -/
def mfccStreamLoop {α : Type u} : List (List α) → List α → List α
  | [], res => res
  | next :: rest, res => mfccStreamLoop rest (res ++ next)

/-- Embedding of `mfccStream`; `mfccFrames data` stands for the frames that
`mfcc.MFCC(source, inSampleRate, nil)` yields for the waveform `data`. -/
def mfccStream {α : Type u} (mfccFrames : List α → List (List α)) (data : List α) : List α :=
  mfccStreamLoop (mfccFrames data) []

/-! ## `loopedSamples` -/

/-- The inner loop of `loopedSamples`: send `samples[i]` for every `i` of `perm`,
in order; `sent` is what the channel has carried so far. -/
def sendEpoch {σ : Type u} (samples : List σ) : List Int → List σ → Except GoPanic (List σ)
  | [], sent => .ok sent
  | i :: rest, sent =>
    match goIndex samples i with
    | .error p => .error p
    | .ok sample => sendEpoch samples rest (sent ++ [sample])

/-- Embedding of the producer of `loopedSamples`, run for `epochs` iterations of
its endless outer loop. `randPerm c n` stands for the result of the `c`-th call
`rand.Perm(n)`; `call` counts the calls made so far and `sent` is what the
channel has carried so far. -/
def loopedSamples {σ : Type u} (randPerm : Nat → Nat → List Int) (samples : List σ) :
    Nat → Nat → List σ → Except GoPanic (List σ)
  | 0, _, sent => .ok sent
  | epochs + 1, call, sent =>
    match sendEpoch samples (randPerm call samples.length) sent with
    | .error p => .error p
    | .ok sent1 => loopedSamples randPerm samples epochs (call + 1) sent1

/-! ## The worker -/

/-- Command-line flags read by the worker. -/
structure Flags where
  align : Int
  stride : Int
  augment : Bool
  useMFCC : Bool

/-- Library routines the worker calls, and the zero value of `float64`. -/
structure Externals (α : Type u) where
  zero : α
  formatFloat : α → String
  augment : List α → List α
  mfccFrames : List α → List (List α)

/-- Ways the processing of one sample ends without a line: `essentials.Die(err)`
on a read error, or a run-time panic. -/
inductive Failure (ε : Type) where
  | die (err : ε)
  | panic (p : GoPanic)

/-- Embedding of the body of the worker loop for one sample: the string sent to
`lineChan`, or the failure that ends the program. -/
def processSample {ε : Type} {α : Type u} (ext : Externals α) (flags : Flags)
    (classes : List String) (sample : Sample ε α) : Except (Failure ε) String :=
  match sample.Read with
  | .error err => .error (.die err)
  | .ok data =>
    match (if !flags.useMFCC then downsample ext.zero data flags.stride else .ok data) with
    | .error p => .error (.panic p)
    | .ok data1 =>
      let data2 := if flags.augment then ext.augment data1 else data1
      let classStr := classesToStr classes sample
      if flags.useMFCC then
        let coeffs := mfccStream ext.mfccFrames data2
        .ok (floatsToStr ext.formatFloat coeffs ++ "\n" ++ classStr)
      else
        match padStep ext.zero data2 flags.align with
        | .error p => .error (.panic p)
        | .ok data3 => .ok (floatsToStr ext.formatFloat data3 ++ "\n" ++ classStr)

/-- Go `fmt.Println(line)` as the text written to standard output. -/
def fmtPrintln (line : String) : String := line ++ "\n"

/-! ## Inputs of the example runs -/

/-- Oracle of the example run: the calls of `rand.Perm(3)` alternate between
two permutations. -/
def examplePerm (call : Nat) (_n : Nat) : List Int :=
  if call % 2 = 0 then [2, 0, 1] else [1, 2, 0]

/-- Library routines of the example runs: a formatter with two outputs, the
identity for `Augment`, and an MFCC source that yields the waveform as its
single frame. -/
def exampleExt : Externals Int where
  zero := 0
  formatFloat := fun x => if x = 0 then "0" else "0.5"
  augment := fun data => data
  mfccFrames := fun data => [data]

/-- Sample of the example runs: labelled `music`, read without error. -/
def exampleSample : Sample String Int where
  Classes := ["music"]
  Read := .ok [1, 0, 1]

/-! ## Machine-integer facts -/

theorem wrapInt_of_inRange (x : Int) (h1 : minInt ≤ x) (h2 : x ≤ maxInt) : wrapInt x = x := by
  unfold minInt at h1
  unfold maxInt at h2
  unfold wrapInt
  omega

/-! ## The padding step -/

theorem padStep_eq {α : Type u} (zero : α) (data : List α) (align : Int)
    (h1 : 1 ≤ align) (h2 : align ≤ maxInt) :
    padStep zero data align =
      if goLen data % align = 0 then .ok data
      else if maxAlloc < float64Size * (align - goLen data % align) then
        .error .makeLenOutOfRange
      else if maxAlloc < float64Size * (goLen data + (align - goLen data % align)) then
        .error .growsliceLenOutOfRange
      else .ok (data ++ List.replicate (align - goLen data % align).toNat zero) := by
  have hne : align ≠ 0 := by omega
  have hmod : Int.tmod (data.length : Int) align = (data.length : Int) % align :=
    Int.tmod_eq_emod (by omega) (by omega)
  have hlt : (data.length : Int) % align < align := Int.emod_lt_of_pos _ (by omega)
  have hnn : 0 ≤ (data.length : Int) % align := Int.emod_nonneg _ hne
  unfold padStep goRem goLen
  simp only [hne, if_false, hmod]
  by_cases hr : (data.length : Int) % align = 0
  · simp [hr]
  · have hw : goSub align ((data.length : Int) % align) = align - (data.length : Int) % align := by
      unfold goSub
      apply wrapInt_of_inRange
      · unfold minInt; omega
      · omega
    have hpos : ¬ (align - (data.length : Int) % align < 0) := by omega
    have hcast : (((align - (data.length : Int) % align).toNat : Nat) : Int)
        = align - (data.length : Int) % align := Int.toNat_of_nonneg (by omega)
    rw [if_neg hr]
    simp only [ne_eq, hr, not_false_eq_true, if_true, hw, goMake, hpos, false_or]
    by_cases hbig : maxAlloc < float64Size * (align - (data.length : Int) % align)
    · rw [if_pos hbig, if_pos hbig]
    · rw [if_neg hbig, if_neg hbig]
      simp only [goAppend, goLen, List.length_replicate, hcast]

/-- The padding step completes exactly when no padding is needed or the padded
vector is within the size limit of one allocation; otherwise `make` or `append`
panics. -/
theorem padStep_ok_iff {α : Type u} (zero : α) (data : List α) (align : Int)
    (h1 : 1 ≤ align) (h2 : align ≤ maxInt) :
    ((goLen data % align = 0 ∨
        float64Size * (goLen data + (align - goLen data % align)) ≤ maxAlloc) ↔
      ∃ out, padStep zero data align = .ok out) ∧
    ((∃ out, padStep zero data align = .ok out) ∨
      padStep zero data align = .error .makeLenOutOfRange ∨
      padStep zero data align = .error .growsliceLenOutOfRange) := by
  have hlen : 0 ≤ goLen data := Int.ofNat_nonneg _
  rw [padStep_eq zero data align h1 h2]
  by_cases hr : goLen data % align = 0
  · rw [if_pos hr]
    exact ⟨⟨fun _ => ⟨_, rfl⟩, fun _ => Or.inl hr⟩, Or.inl ⟨_, rfl⟩⟩
  · rw [if_neg hr]
    by_cases hbig : maxAlloc < float64Size * (align - goLen data % align)
    · rw [if_pos hbig]
      refine ⟨⟨fun h => ?_, fun h => ?_⟩, Or.inr (Or.inl rfl)⟩
      · rcases h with h | h
        · exact absurd h hr
        · unfold float64Size at h hbig
          omega
      · obtain ⟨out, hout⟩ := h
        exact nomatch hout
    · rw [if_neg hbig]
      by_cases hbig2 : maxAlloc < float64Size * (goLen data + (align - goLen data % align))
      · rw [if_pos hbig2]
        refine ⟨⟨fun h => ?_, fun h => ?_⟩, Or.inr (Or.inr rfl)⟩
        · rcases h with h | h
          · exact absurd h hr
          · omega
        · obtain ⟨out, hout⟩ := h
          exact nomatch hout
      · rw [if_neg hbig2]
        exact ⟨⟨fun _ => ⟨_, rfl⟩, fun _ => Or.inr (by omega)⟩, Or.inl ⟨_, rfl⟩⟩

/-- What the padding step returns is `data` itself when `len(data)` is a
multiple of `align`, and `data` followed by `align - len(data)%align` zero
values otherwise. -/
theorem padStep_ok_eq {α : Type u} (zero : α) (data : List α) (align : Int)
    (h1 : 1 ≤ align) (h2 : align ≤ maxInt) (out : List α)
    (h : padStep zero data align = .ok out) :
    out = if goLen data % align = 0 then data
          else data ++ List.replicate (align - goLen data % align).toNat zero := by
  rw [padStep_eq zero data align h1 h2] at h
  by_cases hr : goLen data % align = 0
  · rw [if_pos hr] at h
    rw [if_pos hr]
    injection h with h
    exact h.symm
  · rw [if_neg hr] at h
    rw [if_neg hr]
    by_cases hbig : maxAlloc < float64Size * (align - goLen data % align)
    · rw [if_pos hbig] at h
      exact nomatch h
    · rw [if_neg hbig] at h
      by_cases hbig2 : maxAlloc < float64Size * (goLen data + (align - goLen data % align))
      · rw [if_pos hbig2] at h
        exact nomatch h
      · rw [if_neg hbig2] at h
        injection h with h
        exact h.symm

/-- C2 (as amended): in PCM mode, for every `align ≥ 1` (a Go `int`) and every
waveform, the padding step completes exactly when `len(data)` is a multiple of
`align` or the padded vector of `len(data) + (align - len(data)%align)` values
is within the size limit of one allocation (otherwise `make` or `append`
panics), and whenever it completes the padded vector has the smallest length
that is a multiple of `align` and at least
`len(data)`: the length is divisible by `align`, at least `len(data)`, below
`len(data) + align`, and no multiple of `align` that is at least `len(data)` is
smaller. -/
theorem padStep_length_smallest_multiple {α : Type u} (zero : α) (data : List α) (align : Int)
    (h1 : 1 ≤ align) (h2 : align ≤ maxInt) :
    ((goLen data % align = 0 ∨
        float64Size * (goLen data + (align - goLen data % align)) ≤ maxAlloc) ↔
      ∃ out, padStep zero data align = .ok out) ∧
    ((∃ out, padStep zero data align = .ok out) ∨
      padStep zero data align = .error .makeLenOutOfRange ∨
      padStep zero data align = .error .growsliceLenOutOfRange) ∧
    ∀ out, padStep zero data align = .ok out →
      goLen out % align = 0 ∧ goLen data ≤ goLen out ∧ goLen out < goLen data + align ∧
      ∀ m : Int, m % align = 0 → goLen data ≤ m → goLen out ≤ m := by
  refine ⟨(padStep_ok_iff zero data align h1 h2).1, (padStep_ok_iff zero data align h1 h2).2, ?_⟩
  intro out hout
  have hne : align ≠ 0 := by omega
  have hlt : (data.length : Int) % align < align := Int.emod_lt_of_pos _ (by omega)
  have hnn : 0 ≤ (data.length : Int) % align := Int.emod_nonneg _ hne
  rw [padStep_ok_eq zero data align h1 h2 out hout]
  unfold goLen
  by_cases hr : (data.length : Int) % align = 0
  · rw [if_pos hr]
    refine ⟨hr, le_refl _, by omega, fun m _ hm => hm⟩
  · rw [if_neg hr]
    simp only [List.length_append, List.length_replicate, Nat.cast_add]
    have hcast : (((align - (data.length : Int) % align).toNat : Nat) : Int)
        = align - (data.length : Int) % align := Int.toNat_of_nonneg (by omega)
    rw [hcast]
    have hdiv := Int.emod_add_ediv (data.length : Int) align
    refine ⟨?_, by omega, by omega, ?_⟩
    · have : (data.length : Int) + (align - (data.length : Int) % align)
          = align * ((data.length : Int) / align + 1) := by
        rw [mul_add, mul_one]; omega
      rw [this]
      exact Int.mul_emod_right _ _
    · intro m hm hle
      have hm2 := Int.emod_add_ediv m align
      rw [hm, zero_add] at hm2
      have hq : (data.length : Int) / align < m / align := by
        by_contra hcon
        have hcon2 : m / align ≤ (data.length : Int) / align := by omega
        have := Int.mul_le_mul_of_nonneg_left hcon2 (show (0 : Int) ≤ align by omega)
        omega
      have hq2 : (data.length : Int) / align + 1 ≤ m / align := by omega
      have := Int.mul_le_mul_of_nonneg_left hq2 (show (0 : Int) ≤ align by omega)
      rw [mul_add, mul_one] at this
      omega

theorem padStep_length_smallest_multiple_witness :
    (1 : Int) ≤ 4 ∧ (4 : Int) ≤ maxInt ∧
    padStep (0 : Int) [7, 8, 9, 10, 11] 4 = .ok [7, 8, 9, 10, 11, 0, 0, 0] ∧
    goLen ([7, 8, 9, 10, 11, 0, 0, 0] : List Int) % 4 = 0 ∧
    goLen ([7, 8, 9, 10, 11] : List Int) ≤ goLen ([7, 8, 9, 10, 11, 0, 0, 0] : List Int) ∧
    goLen ([7, 8, 9, 10, 11, 0, 0, 0] : List Int) < goLen ([7, 8, 9, 10, 11] : List Int) + 4 ∧
    ∀ m : Int, m % 4 = 0 → goLen ([7, 8, 9, 10, 11] : List Int) ≤ m →
      goLen ([7, 8, 9, 10, 11, 0, 0, 0] : List Int) ≤ m :=
  ⟨by decide, by decide, rfl,
    (padStep_length_smallest_multiple (0 : Int) [7, 8, 9, 10, 11] 4 (by decide) (by decide)).2.2
      [7, 8, 9, 10, 11, 0, 0, 0] rfl⟩

/-- C2 (counterexample): with `-align 4611686018427387904` and a waveform of
three samples, `make` is asked for `4611686018427387901` values, more than one
allocation may hold, and panics: the padding step leaves no feature vector of
length `4611686018427387904`. -/
theorem padStep_align_two_pow_62_panics :
    (1 : Int) ≤ 4611686018427387904 ∧ (4611686018427387904 : Int) ≤ maxInt ∧
    padStep (0 : Int) [1, 0, 1] 4611686018427387904 = .error .makeLenOutOfRange ∧
    ¬ ∃ out, padStep (0 : Int) [1, 0, 1] 4611686018427387904 = .ok out := by
  refine ⟨by decide, by decide, rfl, ?_⟩
  rintro ⟨out, h⟩
  have h2 : padStep (0 : Int) [1, 0, 1] 4611686018427387904 = .error .makeLenOutOfRange := rfl
  rw [h2] at h
  exact nomatch h

/-- C3 (as amended): in PCM mode, for every `align ≥ 1` (a Go `int`) and every
waveform, the padding step only appends. It completes exactly when `len(data)`
is a multiple of `align` or the padded vector of
`len(data) + (align - len(data)%align)` values is within the size limit of one
allocation (otherwise `make` or `append` panics); whenever it completes, the first `len(data)` elements of the padded vector are `data` and
every element at an index `≥ len(data)` is the zero value; and when `len(data)`
is already a multiple of `align` it completes and leaves the vector
unchanged. -/
theorem padStep_only_appends_zeros {α : Type u} (zero : α) (data : List α) (align : Int)
    (h1 : 1 ≤ align) (h2 : align ≤ maxInt) :
    ((goLen data % align = 0 ∨
        float64Size * (goLen data + (align - goLen data % align)) ≤ maxAlloc) ↔
      ∃ out, padStep zero data align = .ok out) ∧
    ((∃ out, padStep zero data align = .ok out) ∨
      padStep zero data align = .error .makeLenOutOfRange ∨
      padStep zero data align = .error .growsliceLenOutOfRange) ∧
    (∀ out, padStep zero data align = .ok out →
      out.take data.length = data ∧
      ∀ i : Nat, data.length ≤ i → i < out.length → out.get? i = some zero) ∧
    (goLen data % align = 0 → padStep zero data align = .ok data) := by
  refine ⟨(padStep_ok_iff zero data align h1 h2).1, (padStep_ok_iff zero data align h1 h2).2,
    ?_, ?_⟩
  · intro out hout
    rw [padStep_ok_eq zero data align h1 h2 out hout]
    by_cases hr : goLen data % align = 0
    · rw [if_pos hr]
      exact ⟨List.take_length _, fun i h1 h2 => absurd h2 (by omega)⟩
    · rw [if_neg hr]
      refine ⟨by simp, ?_⟩
      intro i hi1 hi2
      rw [List.length_append, List.length_replicate] at hi2
      rw [List.get?_eq_getElem?, List.getElem?_append_right hi1, List.getElem?_replicate]
      have : i - data.length < (align - goLen data % align).toNat := by omega
      simp [this]
  · intro hr
    rw [padStep_eq zero data align h1 h2, if_pos hr]

theorem padStep_only_appends_zeros_witness :
    (1 : Int) ≤ 4 ∧ (4 : Int) ≤ maxInt ∧
    padStep (0 : Int) [7, 8, 9, 10, 11] 4 = .ok [7, 8, 9, 10, 11, 0, 0, 0] ∧
    ([7, 8, 9, 10, 11, 0, 0, 0] : List Int).take ([7, 8, 9, 10, 11] : List Int).length
      = [7, 8, 9, 10, 11] ∧
    (∀ i : Nat, ([7, 8, 9, 10, 11] : List Int).length ≤ i →
      i < ([7, 8, 9, 10, 11, 0, 0, 0] : List Int).length →
      ([7, 8, 9, 10, 11, 0, 0, 0] : List Int).get? i = some 0) :=
  ⟨by decide, by decide, rfl,
    (padStep_only_appends_zeros (0 : Int) [7, 8, 9, 10, 11] 4 (by decide) (by decide)).2.2.1
      [7, 8, 9, 10, 11, 0, 0, 0] rfl⟩

/-- C3 (counterexample): with `-align 9223372036854775807` and a waveform of
five samples, `make` is asked for `9223372036854775802` values and panics: the
padding step leaves no padded vector, so nothing is appended to `data`. -/
theorem padStep_align_maxInt_panics :
    (1 : Int) ≤ 9223372036854775807 ∧ (9223372036854775807 : Int) ≤ maxInt ∧
    padStep (0 : Int) [1, 0, 1, 0, 1] 9223372036854775807 = .error .makeLenOutOfRange ∧
    ¬ ∃ out, padStep (0 : Int) [1, 0, 1, 0, 1] 9223372036854775807 = .ok out := by
  refine ⟨by decide, by decide, rfl, ?_⟩
  rintro ⟨out, h⟩
  have h2 : padStep (0 : Int) [1, 0, 1, 0, 1] 9223372036854775807
      = .error .makeLenOutOfRange := rfl
  rw [h2] at h
  exact nomatch h

/-! ## `downsample` -/

theorem goIndex_natCast {α : Type u} (data : List α) (k : Nat) (v : α)
    (h : data.get? k = some v) : goIndex data (k : Int) = .ok v := by
  unfold goIndex
  have hk : ¬ ((k : Int) < 0) := by omega
  rw [if_neg hk, Int.toNat_ofNat, h]

theorem downsampleLoop_ok {α : Type u} (data : List α) (stride : Int) (f : Nat → α) :
    ∀ (fuel i : Nat) (res : List α),
      (∀ j, i ≤ j → j < i + fuel → goIndex data (goMul (j : Int) stride) = .ok (f j)) →
      i + fuel ≤ res.length →
      ∃ out, downsampleLoop data stride fuel i res = .ok out ∧ out.length = res.length ∧
        ∀ j, out.get? j = if i ≤ j ∧ j < i + fuel then some (f j) else res.get? j := by
  intro fuel
  induction fuel with
  | zero =>
    intro i res _ _
    refine ⟨res, rfl, rfl, fun j => ?_⟩
    have : ¬ (i ≤ j ∧ j < i + 0) := by omega
    rw [if_neg this]
  | succ fuel ih =>
    intro i res hidx hlen
    have h0 := hidx i (le_refl _) (by omega)
    obtain ⟨out, hout, hl, hget⟩ := ih (i + 1) (res.set i (f i))
      (fun j hj1 hj2 => hidx j (by omega) (by omega)) (by rw [List.length_set]; omega)
    refine ⟨out, ?_, by rw [hl, List.length_set], fun j => ?_⟩
    · simp only [downsampleLoop, h0]
      exact hout
    · rw [hget j]
      by_cases hji : j = i
      · subst hji
        have h1 : ¬ (j + 1 ≤ j ∧ j < j + 1 + fuel) := by omega
        have h2 : j ≤ j ∧ j < j + (fuel + 1) := by omega
        rw [if_neg h1, if_pos h2, List.get?_eq_getElem?, List.getElem?_set_self (by omega)]
      · by_cases hc : i + 1 ≤ j ∧ j < i + 1 + fuel
        · have h2 : i ≤ j ∧ j < i + (fuel + 1) := by omega
          rw [if_pos hc, if_pos h2]
        · have h2 : ¬ (i ≤ j ∧ j < i + (fuel + 1)) := by omega
          rw [if_neg hc, if_neg h2, List.get?_eq_getElem?, List.get?_eq_getElem?,
            List.getElem?_set_ne (fun h => hji h.symm)]

/-- Without overflow of `len(data)+(stride-1)`, the allocated length is the
rounded-up quotient. -/
theorem downsampleLen_of_no_overflow {α : Type u} (data : List α) (stride : Int)
    (h1 : 1 ≤ stride) (h2 : goLen data + (stride - 1) ≤ maxInt) :
    downsampleLen data stride = .ok (((data.length + (stride.toNat - 1)) / stride.toNat : Nat) : Int) := by
  unfold goLen at h2
  have hs : ((stride.toNat : Nat) : Int) = stride := Int.toNat_of_nonneg (by omega)
  have hne : stride ≠ 0 := by omega
  have hsub : goSub stride 1 = stride - 1 := by
    unfold goSub
    exact wrapInt_of_inRange _ (by unfold minInt; omega) (by omega)
  have hadd : goAdd (data.length : Int) (stride - 1) = (data.length : Int) + (stride - 1) := by
    unfold goAdd
    exact wrapInt_of_inRange _ (by unfold minInt; omega) h2
  have hcast : (data.length : Int) + (stride - 1)
      = ((data.length + (stride.toNat - 1) : Nat) : Int) := by
    have : 1 ≤ stride.toNat := by omega
    push_cast [Nat.cast_sub this]
    omega
  unfold downsampleLen goDiv goLen
  rw [if_neg hne, hsub, hadd, hcast]
  nth_rewrite 2 [← hs]
  rw [← Int.ofNat_tdiv]
  have hle : (data.length + (stride.toNat - 1)) / stride.toNat ≤ data.length + (stride.toNat - 1) :=
    Nat.div_le_self _ _
  have hle2 : (((data.length + (stride.toNat - 1)) / stride.toNat : Nat) : Int)
      ≤ ((data.length + (stride.toNat - 1) : Nat) : Int) := by exact_mod_cast hle
  have h2b : ((data.length + (stride.toNat - 1) : Nat) : Int) ≤ maxInt := by
    rw [← hcast]; exact h2
  have hnn : minInt ≤ (((data.length + (stride.toNat - 1)) / stride.toNat : Nat) : Int) :=
    le_trans (by decide) (Int.ofNat_nonneg _)
  rw [wrapInt_of_inRange _ hnn (le_trans hle2 h2b)]

/-- When `len(data)+(stride-1)` overflows, the allocated length is not positive. -/
theorem downsampleLen_of_overflow {α : Type u} (data : List α) (stride : Int)
    (h1 : 1 ≤ stride) (h2 : stride ≤ maxInt) (h3 : goLen data ≤ maxInt)
    (h4 : maxInt < goLen data + (stride - 1)) :
    ∃ n, downsampleLen data stride = .ok n ∧ n ≤ 0 := by
  unfold goLen at h3 h4
  unfold maxInt at h2 h3 h4
  have hne : stride ≠ 0 := by omega
  have hsub : goSub stride 1 = stride - 1 := by
    unfold goSub
    exact wrapInt_of_inRange _ (by unfold minInt; omega) (by unfold maxInt; omega)
  have hadd : goAdd (data.length : Int) (stride - 1)
      = (data.length : Int) + (stride - 1) - 18446744073709551616 := by
    unfold goAdd wrapInt
    omega
  unfold downsampleLen goDiv goLen
  rw [if_neg hne, hsub, hadd]
  refine ⟨_, rfl, ?_⟩
  have hneg : (data.length : Int) + (stride - 1) - 18446744073709551616
      = -(18446744073709551616 - ((data.length : Int) + (stride - 1))) := by omega
  rw [hneg, Int.neg_tdiv]
  have hq : 0 ≤ (18446744073709551616 - ((data.length : Int) + (stride - 1))).tdiv stride :=
    Int.tdiv_nonneg (by omega) (by omega)
  have hq2 : (18446744073709551616 - ((data.length : Int) + (stride - 1))).tdiv stride
      ≤ 18446744073709551616 - ((data.length : Int) + (stride - 1)) := by
    rw [Int.tdiv_eq_ediv (by omega) (by omega)]
    exact Int.ediv_le_self _ (by omega)
  unfold wrapInt
  omega

theorem mul_lt_of_lt_ceilDiv (n s i : Nat) (hs : 1 ≤ s) (hi : i < (n + (s - 1)) / s) :
    i * s < n := by
  have h1 : (i + 1) * s ≤ n + (s - 1) := (Nat.le_div_iff_mul_le (by omega)).mp hi
  rw [Nat.succ_mul] at h1
  omega

/-- Every index the loop of `downsample` reads is computed without wrap-around
and lies inside `data`, whenever the index is below the rounded-up quotient. -/
theorem goIndex_goMul_of_lt_ceilDiv {α : Type u} (zero : α) (data : List α) (stride : Int)
    (h1 : 1 ≤ stride) (h3 : goLen data ≤ maxInt) (j : Nat)
    (hj : j < (data.length + (stride.toNat - 1)) / stride.toNat) :
    goMul (j : Int) stride = ((j * stride.toNat : Nat) : Int) ∧
    j * stride.toNat < data.length ∧
    goIndex data (goMul (j : Int) stride) = .ok ((data.get? (j * stride.toNat)).getD zero) := by
  unfold goLen at h3
  have hs : ((stride.toNat : Nat) : Int) = stride := Int.toNat_of_nonneg (by omega)
  have hlt : j * stride.toNat < data.length := mul_lt_of_lt_ceilDiv _ _ _ (by omega) hj
  have hmul : goMul (j : Int) stride = ((j * stride.toNat : Nat) : Int) := by
    unfold goMul
    have hc : (j : Int) * stride = ((j * stride.toNat : Nat) : Int) := by
      push_cast; rw [hs]
    rw [hc]
    exact wrapInt_of_inRange _ (le_trans (by decide) (Int.ofNat_nonneg _)) (by omega)
  refine ⟨hmul, hlt, ?_⟩
  rw [hmul]
  apply goIndex_natCast
  rw [List.get?_eq_getElem?, List.getElem?_eq_getElem hlt]
  rfl

/-- Without overflow of `len(data)+(stride-1)` and with the result within the
size limit of `make`, `downsample` returns every `stride`-th element of `data`,
starting at index 0. -/
theorem downsample_of_make_ok {α : Type u} (zero : α) (data : List α) (stride : Int)
    (h1 : 1 ≤ stride) (h2 : goLen data + (stride - 1) ≤ maxInt)
    (hmk : float64Size * (((data.length + (stride.toNat - 1)) / stride.toNat : Nat) : Int)
      ≤ maxAlloc) :
    ∃ out, downsample zero data stride = .ok out ∧
      out.length = (data.length + (stride.toNat - 1)) / stride.toNat ∧
      ∀ i, i < out.length → out.get? i = data.get? (i * stride.toNat) := by
  by_cases hone : stride = 1
  · subst hone
    refine ⟨data, by simp [downsample], by simp, fun i _ => by simp⟩
  · have h3 : goLen data ≤ maxInt := by omega
    have hn := downsampleLen_of_no_overflow data stride h1 h2
    obtain ⟨out, hout, hl, hget⟩ := downsampleLoop_ok data stride
      (fun j => (data.get? (j * stride.toNat)).getD zero)
      ((data.length + (stride.toNat - 1)) / stride.toNat) 0
      (List.replicate ((data.length + (stride.toNat - 1)) / stride.toNat) zero)
      (fun j _ hj => (goIndex_goMul_of_lt_ceilDiv zero data stride h1 h3 j (by omega)).2.2)
      (by simp)
    rw [List.length_replicate] at hl
    refine ⟨out, ?_, hl, fun i hi => ?_⟩
    · have hnn : ¬ ((((data.length + (stride.toNat - 1)) / stride.toNat : Nat) : Int) < 0 ∨
          maxAlloc < float64Size *
            (((data.length + (stride.toNat - 1)) / stride.toNat : Nat) : Int)) := by
        omega
      simp only [downsample, if_neg hone, hn, goMake, if_neg hnn, Int.toNat_ofNat,
        List.length_replicate]
      exact hout
    · rw [hget i]
      rw [hl] at hi
      have hc : 0 ≤ i ∧ i < 0 + (data.length + (stride.toNat - 1)) / stride.toNat := by omega
      rw [if_pos hc]
      have hlt := (goIndex_goMul_of_lt_ceilDiv zero data stride h1 h3 i hi).2.1
      rw [List.get?_eq_getElem?, List.getElem?_eq_getElem hlt]
      rfl

/-- Without overflow of `len(data)+(stride-1)` but with a result beyond the size
limit of `make`, `downsample` ends in the panic of `make`. -/
theorem downsample_of_make_fails {α : Type u} (zero : α) (data : List α) (stride : Int)
    (h1 : 1 ≤ stride) (hone : stride ≠ 1) (h2 : goLen data + (stride - 1) ≤ maxInt)
    (hmk : maxAlloc < float64Size *
      (((data.length + (stride.toNat - 1)) / stride.toNat : Nat) : Int)) :
    downsample zero data stride = .error .makeLenOutOfRange := by
  have hn := downsampleLen_of_no_overflow data stride h1 h2
  simp only [downsample, if_neg hone, hn, goMake, if_pos (Or.inr hmk)]

theorem ceilDiv_le_self (n s : Nat) (hs : 1 ≤ s) : (n + (s - 1)) / s ≤ n := by
  have h : (n + (s - 1)) / s < n + 1 := by
    rw [Nat.div_lt_iff_lt_mul (by omega)]
    have : n ≤ n * s := Nat.le_mul_of_pos_right n (by omega)
    rw [Nat.succ_mul]
    omega
  omega

/-- For a waveform that is a Go slice of `float64` (its size in bytes is within
`maxAlloc`) and without overflow of `len(data)+(stride-1)`, `downsample`
returns every `stride`-th element of `data`, starting at index 0: the result
has the rounded-up quotient as its length and `data[i*stride]` at index `i`. -/
theorem downsample_of_no_overflow {α : Type u} (zero : α) (data : List α) (stride : Int)
    (h1 : 1 ≤ stride) (h2 : goLen data + (stride - 1) ≤ maxInt)
    (h3 : float64Size * goLen data ≤ maxAlloc) :
    ∃ out, downsample zero data stride = .ok out ∧
      out.length = (data.length + (stride.toNat - 1)) / stride.toNat ∧
      ∀ i, i < out.length → out.get? i = data.get? (i * stride.toNat) := by
  apply downsample_of_make_ok zero data stride h1 h2
  have hle : (data.length + (stride.toNat - 1)) / stride.toNat ≤ data.length :=
    ceilDiv_le_self _ _ (by omega)
  have hle2 : (((data.length + (stride.toNat - 1)) / stride.toNat : Nat) : Int)
      ≤ (data.length : Int) := by exact_mod_cast hle
  unfold goLen float64Size at h3
  unfold float64Size
  omega

/-- C8: `downsample` never indexes outside its input. For every `stride ≥ 1`
(a Go `int`) and every waveform (a Go slice, the empty one included):
`downsample` does not end in the index-out-of-range panic; every index
`i * stride` with `i` below the rounded-up quotient
`(len(data) + stride - 1) / stride` is below `len(data)` and reading it
succeeds; and every index the loop really reads, `i` below the allocated
length, is computed as a value in `0 .. len(data) - 1`. -/
theorem downsample_never_indexes_out_of_range {α : Type u} (zero : α) (data : List α)
    (stride : Int) (h1 : 1 ≤ stride) (h2 : stride ≤ maxInt) (h3 : goLen data ≤ maxInt) :
    downsample zero data stride ≠ .error .indexOutOfRange ∧
    (∀ i : Nat, i < (data.length + (stride.toNat - 1)) / stride.toNat →
      (i : Int) * stride < goLen data ∧
      ∃ v, goIndex data (goMul (i : Int) stride) = .ok v) ∧
    (∀ n, downsampleLen data stride = .ok n → ∀ i : Nat, (i : Int) < n →
      0 ≤ goMul (i : Int) stride ∧ goMul (i : Int) stride < goLen data) := by
  have hs : ((stride.toNat : Nat) : Int) = stride := Int.toNat_of_nonneg (by omega)
  have hmid : ∀ i : Nat, i < (data.length + (stride.toNat - 1)) / stride.toNat →
      (i : Int) * stride < goLen data ∧
      ∃ v, goIndex data (goMul (i : Int) stride) = .ok v := by
    intro i hi
    obtain ⟨_, hlt, hidx⟩ := goIndex_goMul_of_lt_ceilDiv zero data stride h1 h3 i hi
    refine ⟨?_, _, hidx⟩
    unfold goLen
    rw [← hs]
    exact_mod_cast hlt
  by_cases hov : goLen data + (stride - 1) ≤ maxInt
  · refine ⟨?_, hmid, ?_⟩
    · by_cases hmk : float64Size *
          (((data.length + (stride.toNat - 1)) / stride.toNat : Nat) : Int) ≤ maxAlloc
      · obtain ⟨out, hout, _, _⟩ := downsample_of_make_ok zero data stride h1 hov hmk
        rw [hout]
        exact fun h => nomatch h
      · by_cases hone : stride = 1
        · subst hone
          simp [downsample]
        · rw [downsample_of_make_fails zero data stride h1 hone hov (by omega)]
          exact fun h => nomatch h
    intro n hn i hi
    rw [downsampleLen_of_no_overflow data stride h1 hov] at hn
    injection hn with hn
    subst hn
    have hi2 : i < (data.length + (stride.toNat - 1)) / stride.toNat := by exact_mod_cast hi
    obtain ⟨hmul, hlt, _⟩ := goIndex_goMul_of_lt_ceilDiv zero data stride h1 h3 i hi2
    rw [hmul]
    unfold goLen
    exact ⟨Int.ofNat_nonneg _, by exact_mod_cast hlt⟩
  · obtain ⟨n, hn, hle⟩ := downsampleLen_of_overflow data stride h1 h2 h3 (by omega)
    have hone : stride ≠ 1 := by
      intro h
      subst h
      omega
    refine ⟨?_, hmid, ?_⟩
    · simp only [downsample, if_neg hone, hn, goMake]
      by_cases hneg : n < 0
      · rw [if_pos (Or.inl hneg)]
        exact fun h => nomatch h
      · have hz : n = 0 := by omega
        subst hz
        exact fun h => nomatch h
    · intro m hm i hi
      rw [hn] at hm
      injection hm with hm
      omega

theorem downsample_never_indexes_out_of_range_witness :
    (1 : Int) ≤ 3 ∧ (3 : Int) ≤ maxInt ∧ goLen ([5, 6, 7, 8] : List Int) ≤ maxInt ∧
    downsample (0 : Int) [5, 6, 7, 8] 3 ≠ .error .indexOutOfRange ∧
    (∀ i : Nat, i < (([5, 6, 7, 8] : List Int).length + ((3 : Int).toNat - 1)) / (3 : Int).toNat →
      (i : Int) * 3 < goLen ([5, 6, 7, 8] : List Int) ∧
      ∃ v, goIndex ([5, 6, 7, 8] : List Int) (goMul (i : Int) 3) = .ok v) ∧
    (∀ n, downsampleLen ([5, 6, 7, 8] : List Int) 3 = .ok n → ∀ i : Nat, (i : Int) < n →
      0 ≤ goMul (i : Int) 3 ∧ goMul (i : Int) 3 < goLen ([5, 6, 7, 8] : List Int)) :=
  ⟨by decide, by decide, by decide,
    downsample_never_indexes_out_of_range (0 : Int) [5, 6, 7, 8] 3
      (by decide) (by decide) (by decide)⟩

/-- C4 (failing input): with `stride = 9223372036854775807` and a waveform of
four samples the sum `len(data)+(stride-1)` wraps around to a negative number,
the allocated length is 0 and `downsample` returns the empty slice, although
the rounded-up quotient `ceil(4 / stride)` is 1 and `data[0]` should be kept;
with two samples the wrapped quotient is `-1` and `make` panics. -/
theorem downsample_stride_overflow :
    downsample (0 : Int) [10, 20, 30, 40] 9223372036854775807 = .ok [] ∧
    (4 + (9223372036854775807 - 1)) / 9223372036854775807 = 1 ∧
    downsampleLen ([10, 20, 30, 40] : List Int) 9223372036854775807 = .ok 0 ∧
    downsample (0 : Int) [10, 20] 9223372036854775807 = .error .makeLenOutOfRange :=
  ⟨rfl, by decide, rfl, rfl⟩

/-! ## Output formatting -/

theorem classPresent_iff (cls : String) (labels : List String) :
    classPresent cls labels = true ↔ cls ∈ labels := by
  induction labels with
  | nil => simp [classPresent]
  | cons x xs ih =>
    unfold classPresent
    by_cases hx : x = cls
    · simp [hx]
    · have hx2 : ¬ cls = x := fun h => hx h.symm
      simp [hx, hx2, ih]

theorem foldl_append_singleton {β : Type u} {γ : Type} (t : β → γ) (l : List β) (acc : List γ) :
    l.foldl (fun parts x => parts ++ [t x]) acc = acc ++ l.map t := by
  induction l generalizing acc with
  | nil => simp
  | cons a l ih => simp [ih]

theorem classesToStr_eq_join_map {ε : Type} {α : Type u} (classes : List String)
    (sample : Sample ε α) :
    classesToStr classes sample =
      stringsJoin (classes.map (fun c => if c ∈ sample.Classes then "1" else "0")) " " := by
  unfold classesToStr
  have hfun : (fun (vec : List String) (cls : String) =>
        if classPresent cls sample.Classes then vec ++ ["1"] else vec ++ ["0"])
      = (fun vec cls => vec ++ [(fun c => if c ∈ sample.Classes then "1" else "0") cls]) := by
    funext vec cls
    by_cases h : cls ∈ sample.Classes
    · simp [h, (classPresent_iff cls sample.Classes).mpr h]
    · have h2 : classPresent cls sample.Classes = false := by
        cases hc : classPresent cls sample.Classes with
        | false => rfl
        | true => exact absurd ((classPresent_iff _ _).mp hc) h
      simp [h, h2]
  rw [hfun, foldl_append_singleton]
  simp

theorem stringsJoin_single_chars {β : Type} (g : β → Char) (t : β → String)
    (ht : ∀ b, (t b).data = [g b]) (l : List β) :
    (stringsJoin (l.map t) " ").data = List.intersperse ' ' (l.map g) := by
  induction l with
  | nil => rfl
  | cons a l ih =>
    cases l with
    | nil => simp [stringsJoin, ht]
    | cons b rest =>
      simp only [List.map_cons, stringsJoin, String.data_append, ht] at ih ⊢
      rw [ih]
      rfl

/-- A character of `strings.Join(parts, sep)` comes from the separator or from
one of the parts. -/
theorem mem_stringsJoin (c : Char) (sep : String) (parts : List String)
    (h : c ∈ (stringsJoin parts sep).data) : c ∈ sep.data ∨ ∃ p ∈ parts, c ∈ p.data := by
  induction parts with
  | nil => simp [stringsJoin] at h
  | cons a l ih =>
    cases l with
    | nil => exact Or.inr ⟨a, by simp, by simpa [stringsJoin] using h⟩
    | cons b rest =>
      simp only [stringsJoin, String.data_append, List.mem_append] at h
      rcases h with (h | h) | h
      · exact Or.inr ⟨a, by simp, h⟩
      · exact Or.inl h
      · rcases ih h with h2 | ⟨p, hp, hc⟩
        · exact Or.inl h2
        · exact Or.inr ⟨p, List.mem_cons_of_mem _ hp, hc⟩

/-- C5: for every class list and every sample, `classesToStr(classes, sample)`
is the multi-label indicator vector of the sample over `classes`: its text is
exactly `len(classes)` one-character tokens separated by single spaces, in the
order of `classes`, the `i`-th token being `1` when `classes[i]` occurs among
the labels of the sample and `0` otherwise; so a sample whose labels agree with
it on membership of every listed class (duplicates, labels outside `classes`)
gives the same text. -/
theorem classesToStr_indicator_vector {ε : Type} {α : Type u} (classes : List String)
    (sample : Sample ε α) :
    (classesToStr classes sample).data =
      List.intersperse ' ' (classes.map (fun c => if c ∈ sample.Classes then '1' else '0')) ∧
    (classes.map (fun c => if c ∈ sample.Classes then '1' else '0')).length = classes.length ∧
    (∀ i (h : i < classes.length),
      (classes.map (fun c => if c ∈ sample.Classes then '1' else '0')).get? i =
        some (if classes.get ⟨i, h⟩ ∈ sample.Classes then '1' else '0')) ∧
    (∀ other : Sample ε α, (∀ c ∈ classes, c ∈ other.Classes ↔ c ∈ sample.Classes) →
      classesToStr classes other = classesToStr classes sample) := by
  refine ⟨?_, by simp, ?_, ?_⟩
  · rw [classesToStr_eq_join_map]
    apply stringsJoin_single_chars
    intro b
    by_cases h : b ∈ sample.Classes
    · simp [h]
    · simp [h]
  · intro i h
    simp [List.getElem?_eq_getElem h]
  · intro other hsame
    rw [classesToStr_eq_join_map, classesToStr_eq_join_map]
    congr 1
    apply List.map_congr_left
    intro c hc
    by_cases h : c ∈ sample.Classes
    · simp [h, (hsame c hc).mpr h]
    · have h2 : c ∉ other.Classes := fun h3 => h ((hsame c hc).mp h3)
      simp [h, h2]

/-! ## `loopedSamples` -/

theorem sendEpoch_ok {σ : Type u} (samples : List σ) (perm : List Int)
    (hin : ∀ i ∈ perm, 0 ≤ i ∧ i.toNat < samples.length) (sent : List σ) :
    ∃ epoch, sendEpoch samples perm sent = .ok (sent ++ epoch) ∧
      epoch.map some = perm.map (fun i => samples.get? i.toNat) := by
  induction perm generalizing sent with
  | nil => exact ⟨[], by simp [sendEpoch], rfl⟩
  | cons i rest ih =>
    obtain ⟨h0, hlt⟩ := hin i (List.mem_cons_self _ _)
    have hget : samples.get? i.toNat = some (samples.get ⟨i.toNat, hlt⟩) := by
      rw [List.get?_eq_getElem?, List.getElem?_eq_getElem hlt]
      rfl
    have hidx : goIndex samples i = .ok (samples.get ⟨i.toNat, hlt⟩) := by
      unfold goIndex
      rw [if_neg (by omega), hget]
    obtain ⟨epoch, hrun, hmap⟩ := ih (fun j hj => hin j (List.mem_cons_of_mem _ hj))
      (sent ++ [samples.get ⟨i.toNat, hlt⟩])
    refine ⟨samples.get ⟨i.toNat, hlt⟩ :: epoch, ?_, ?_⟩
    · simp only [sendEpoch, hidx]
      rw [hrun, List.append_assoc]
      rfl
    · rw [List.map_cons, List.map_cons, hmap, hget]

theorem range_map_get? {σ : Type u} (samples : List σ) :
    (List.range samples.length).map (fun k => samples.get? k) = samples.map some := by
  apply List.ext_getElem?
  intro k
  by_cases hk : k < samples.length
  · simp [List.getElem?_eq_getElem, hk]
  · have hk2 : samples.length ≤ k := by omega
    simp [List.getElem?_eq_none, hk2]

/-- One pass of the inner loop over a permutation of the indices sends a
permutation of the dataset. -/
theorem sendEpoch_perm {σ : Type u} (samples : List σ) (perm : List Int)
    (hperm : perm.Perm ((List.range samples.length).map Int.ofNat)) (sent : List σ) :
    ∃ epoch, sendEpoch samples perm sent = .ok (sent ++ epoch) ∧ epoch.Perm samples := by
  have hin : ∀ i ∈ perm, 0 ≤ i ∧ i.toNat < samples.length := by
    intro i hi
    have hi2 := hperm.subset hi
    rw [List.mem_map] at hi2
    obtain ⟨k, hk, rfl⟩ := hi2
    rw [List.mem_range] at hk
    exact ⟨Int.ofNat_nonneg _, by simpa using hk⟩
  obtain ⟨epoch, hrun, hmap⟩ := sendEpoch_ok samples perm hin sent
  refine ⟨epoch, hrun, ?_⟩
  have h1 : (perm.map (fun i => samples.get? i.toNat)).Perm (samples.map some) := by
    have := hperm.map (fun i => samples.get? i.toNat)
    rw [List.map_map] at this
    have hfun : ((fun i : Int => samples.get? i.toNat) ∘ Int.ofNat) = fun k => samples.get? k := by
      funext k
      simp
    rw [hfun, range_map_get?] at this
    exact this
  rw [← hmap] at h1
  have h2 := h1.filterMap id
  simpa [List.filterMap_map] using h2

theorem loopedSamples_run {σ : Type u} (randPerm : Nat → Nat → List Int) (samples : List σ)
    (hperm : ∀ c, (randPerm c samples.length).Perm ((List.range samples.length).map Int.ofNat)) :
    ∀ (epochs call : Nat) (sent : List σ),
      ∃ more, loopedSamples randPerm samples epochs call sent = .ok (sent ++ more) ∧
        more.length = epochs * samples.length ∧
        ∀ k, k < epochs →
          ((more.drop (k * samples.length)).take samples.length).Perm samples := by
  intro epochs
  induction epochs with
  | zero =>
    intro call sent
    exact ⟨[], by simp [loopedSamples], by simp, fun k hk => absurd hk (by omega)⟩
  | succ epochs ih =>
    intro call sent
    obtain ⟨epoch, hrun, hp⟩ := sendEpoch_perm samples _ (hperm call) sent
    obtain ⟨more, hrest, hlen, hk⟩ := ih (call + 1) (sent ++ epoch)
    have hel : epoch.length = samples.length := hp.length_eq
    refine ⟨epoch ++ more, ?_, ?_, ?_⟩
    · simp only [loopedSamples, hrun]
      rw [hrest, List.append_assoc]
    · rw [List.length_append, hlen, hel, Nat.succ_mul, Nat.add_comm]
    · intro k hklt
      cases k with
      | zero =>
        rw [Nat.zero_mul, List.drop_zero, List.take_left' hel]
        exact hp
      | succ k =>
        have hd : (k + 1) * samples.length = epoch.length + k * samples.length := by
          rw [Nat.succ_mul, hel, Nat.add_comm]
        rw [hd, ← List.drop_drop, List.drop_left]
        exact hk k (by omega)

theorem loopedSamples_extends {σ : Type u} (randPerm : Nat → Nat → List Int) (samples : List σ)
    (hperm : ∀ c, (randPerm c samples.length).Perm ((List.range samples.length).map Int.ofNat)) :
    ∀ (epochs call : Nat) (sent : List σ),
      ∃ s1 s2, loopedSamples randPerm samples epochs call sent = .ok s1 ∧
        loopedSamples randPerm samples (epochs + 1) call sent = .ok s2 ∧ s1 <+: s2 := by
  intro epochs
  induction epochs with
  | zero =>
    intro call sent
    obtain ⟨epoch, hrun, _⟩ := sendEpoch_perm samples _ (hperm call) sent
    exact ⟨sent, sent ++ epoch, by simp [loopedSamples], by simp [loopedSamples, hrun],
      List.prefix_append _ _⟩
  | succ epochs ih =>
    intro call sent
    obtain ⟨epoch, hrun, _⟩ := sendEpoch_perm samples _ (hperm call) sent
    obtain ⟨s1, s2, h1, h2, hpre⟩ := ih (call + 1) (sent ++ epoch)
    refine ⟨s1, s2, ?_, ?_, hpre⟩
    · simp only [loopedSamples, hrun]
      exact h1
    · rw [loopedSamples]
      simp only [hrun]
      exact h2

/-- C6: `loopedSamples` resamples the dataset in randomized epochs without end.
Assuming every call `rand.Perm(n)` returns a permutation of `0..n-1`, for every
number of iterations of the outer loop the producer does not fail, has sent
`n` samples per iteration, the samples at stream positions `k*n .. k*n+n-1`
are a permutation of the dataset for every completed epoch `k`, and one more
iteration only extends the stream. -/
theorem loopedSamples_epochs_are_permutations {σ : Type u} (randPerm : Nat → Nat → List Int)
    (samples : List σ)
    (hperm : ∀ c, (randPerm c samples.length).Perm ((List.range samples.length).map Int.ofNat))
    (epochs : Nat) :
    ∃ stream, loopedSamples randPerm samples epochs 0 [] = .ok stream ∧
      stream.length = epochs * samples.length ∧
      (∀ k, k < epochs →
        ((stream.drop (k * samples.length)).take samples.length).Perm samples) ∧
      ∃ next, loopedSamples randPerm samples (epochs + 1) 0 [] = .ok next ∧ stream <+: next := by
  obtain ⟨more, hrun, hlen, hk⟩ := loopedSamples_run randPerm samples hperm epochs 0 []
  obtain ⟨s1, s2, h1, h2, hpre⟩ := loopedSamples_extends randPerm samples hperm epochs 0 []
  rw [List.nil_append] at hrun
  rw [hrun] at h1
  injection h1 with h1
  subst h1
  exact ⟨more, hrun, hlen, hk, s2, h2, hpre⟩

theorem examplePerm_perm (c : Nat) :
    (examplePerm c (["x", "y", "z"] : List String).length).Perm
      ((List.range (["x", "y", "z"] : List String).length).map Int.ofNat) := by
  unfold examplePerm
  by_cases h : c % 2 = 0
  · rw [if_pos h]; decide
  · rw [if_neg h]; decide

theorem loopedSamples_epochs_are_permutations_witness :
    (∀ c, (examplePerm c (["x", "y", "z"] : List String).length).Perm
      ((List.range (["x", "y", "z"] : List String).length).map Int.ofNat)) ∧
    ∃ stream, loopedSamples examplePerm ["x", "y", "z"] 2 0 [] = .ok stream ∧
      stream.length = 2 * (["x", "y", "z"] : List String).length ∧
      (∀ k, k < 2 →
        ((stream.drop (k * (["x", "y", "z"] : List String).length)).take
          (["x", "y", "z"] : List String).length).Perm ["x", "y", "z"]) ∧
      ∃ next, loopedSamples examplePerm ["x", "y", "z"] (2 + 1) 0 [] = .ok next ∧
        stream <+: next :=
  ⟨examplePerm_perm,
    loopedSamples_epochs_are_permutations examplePerm ["x", "y", "z"] examplePerm_perm 2⟩

/-! ## The worker -/

/-- C9: in MFCC mode the `-stride` and `-align` settings have no effect. With
`Augment` and `MFCC` as fixed functions, for every sample, class list, augment
setting and any two pairs `(stride1, align1)`, `(stride2, align2)`, the result
of processing the sample with `useMFCC = true` is the same, and it is the
formatted coefficients of the (possibly augmented) waveform as read: neither
`downsample` nor the padding step is applied. -/
theorem processSample_mfcc_ignores_stride_align {ε : Type} {α : Type u} (ext : Externals α)
    (classes : List String) (sample : Sample ε α) (augment : Bool)
    (stride1 align1 stride2 align2 : Int) :
    processSample ext ⟨align1, stride1, augment, true⟩ classes sample =
      processSample ext ⟨align2, stride2, augment, true⟩ classes sample ∧
    processSample ext ⟨align1, stride1, augment, true⟩ classes sample =
      (match sample.Read with
        | .error err => .error (.die err)
        | .ok data =>
          .ok (floatsToStr ext.formatFloat
                (mfccStream ext.mfccFrames (if augment then ext.augment data else data))
              ++ "\n" ++ classesToStr classes sample)) := by
  refine ⟨?_, ?_⟩
  · unfold processSample
    cases sample.Read with
    | error err => rfl
    | ok data => rfl
  · unfold processSample
    cases sample.Read with
    | error err => rfl
    | ok data => rfl

theorem processSample_read_error {ε : Type} {α : Type u} (ext : Externals α) (flags : Flags)
    (classes : List String) (sample : Sample ε α) (err : ε) (h : sample.Read = .error err) :
    processSample ext flags classes sample = .error (.die err) := by
  unfold processSample
  rw [h]

theorem processSample_mfcc_ok {ε : Type} {α : Type u} (ext : Externals α) (flags : Flags)
    (classes : List String) (sample : Sample ε α) (data : List α) (h : sample.Read = .ok data)
    (hm : flags.useMFCC = true) :
    processSample ext flags classes sample =
      .ok (floatsToStr ext.formatFloat
            (mfccStream ext.mfccFrames (if flags.augment then ext.augment data else data))
          ++ "\n" ++ classesToStr classes sample) := by
  unfold processSample
  rw [h]
  simp [hm]

/-- In PCM mode the worker sends a line exactly when `downsample` and the
padding step complete, and the line is the formatted padded vector, a newline
and the class text. -/
theorem processSample_pcm_eq {ε : Type} {α : Type u} (ext : Externals α) (flags : Flags)
    (classes : List String) (sample : Sample ε α) (data : List α) (h : sample.Read = .ok data)
    (hm : flags.useMFCC = false) (sampled padded : List α)
    (hds : downsample ext.zero data flags.stride = .ok sampled)
    (hpad : padStep ext.zero (if flags.augment then ext.augment sampled else sampled) flags.align
      = .ok padded) :
    processSample ext flags classes sample =
      .ok (floatsToStr ext.formatFloat padded ++ "\n" ++ classesToStr classes sample) := by
  unfold processSample
  rw [h]
  simp only [hm, Bool.not_false, if_true, hds, Bool.false_eq_true, if_false, hpad]

theorem processSample_pcm_ok_iff {ε : Type} {α : Type u} (ext : Externals α) (flags : Flags)
    (classes : List String) (sample : Sample ε α) (data : List α) (h : sample.Read = .ok data)
    (hm : flags.useMFCC = false) :
    (∃ line, processSample ext flags classes sample = .ok line) ↔
      ∃ sampled padded, downsample ext.zero data flags.stride = .ok sampled ∧
        padStep ext.zero (if flags.augment then ext.augment sampled else sampled) flags.align
          = .ok padded := by
  constructor
  · rintro ⟨line, hline⟩
    unfold processSample at hline
    rw [h] at hline
    simp only [hm, Bool.not_false, if_true, Bool.false_eq_true, if_false] at hline
    cases hds : downsample ext.zero data flags.stride with
    | error p =>
      rw [hds] at hline
      exact nomatch hline
    | ok sampled =>
      rw [hds] at hline
      simp only at hline
      cases hpad : padStep ext.zero (if flags.augment then ext.augment sampled else sampled)
          flags.align with
      | error p =>
        rw [hpad] at hline
        exact nomatch hline
      | ok padded => exact ⟨sampled, padded, rfl, hpad⟩
  · rintro ⟨sampled, padded, hds, hpad⟩
    exact ⟨_, processSample_pcm_eq ext flags classes sample data h hm sampled padded hds hpad⟩

/-- In PCM mode with `stride ≥ 1`, `align ≥ 1`, no overflow of
`len(data)+(stride-1)`, a waveform that is a Go slice and a padded vector
within the size limit of one allocation, the worker sends a line. -/
theorem processSample_pcm_ok {ε : Type} {α : Type u} (ext : Externals α) (flags : Flags)
    (classes : List String) (sample : Sample ε α) (data : List α) (h : sample.Read = .ok data)
    (hm : flags.useMFCC = false) (hs : 1 ≤ flags.stride)
    (hov : goLen data + (flags.stride - 1) ≤ maxInt)
    (hdata : float64Size * goLen data ≤ maxAlloc)
    (ha1 : 1 ≤ flags.align)
    (hfit : ∀ sampled, downsample ext.zero data flags.stride = .ok sampled →
      float64Size * (goLen (if flags.augment then ext.augment sampled else sampled) + flags.align)
        ≤ maxAlloc) :
    ∃ line, processSample ext flags classes sample = .ok line := by
  obtain ⟨sampled, hds, _, _⟩ :=
    downsample_of_no_overflow ext.zero data flags.stride hs hov hdata
  have hfit2 := hfit sampled hds
  have hlen : 0 ≤ goLen (if flags.augment then ext.augment sampled else sampled) :=
    Int.ofNat_nonneg _
  have ha2 : flags.align ≤ maxInt := by
    unfold float64Size maxAlloc at hfit2
    unfold maxInt
    omega
  have hnn : 0 ≤ goLen (if flags.augment then ext.augment sampled else sampled) % flags.align :=
    Int.emod_nonneg _ (by omega)
  obtain ⟨padded, hpad⟩ := ((padStep_ok_iff ext.zero
      (if flags.augment then ext.augment sampled else sampled) flags.align ha1 ha2).1).mp
    (Or.inr (by unfold float64Size at hfit2 ⊢; omega))
  exact ⟨_, processSample_pcm_eq ext flags classes sample data h hm sampled padded hds hpad⟩

/-- Either outcome of a successful read: a line or a run-time panic. -/
theorem processSample_read_ok_cases {ε : Type} {α : Type u} (ext : Externals α) (flags : Flags)
    (classes : List String) (sample : Sample ε α) (data : List α) (h : sample.Read = .ok data) :
    (∃ line, processSample ext flags classes sample = .ok line) ∨
    (∃ p, processSample ext flags classes sample = .error (.panic p)) := by
  unfold processSample
  rw [h]
  simp only
  split
  · exact Or.inr ⟨_, rfl⟩
  · split
    · exact Or.inl ⟨_, rfl⟩
    · split
      · exact Or.inr ⟨_, rfl⟩
      · exact Or.inl ⟨_, rfl⟩

/-- A line the worker sends is the feature text, a newline and the class text. -/
theorem processSample_line_form {ε : Type} {α : Type u} (ext : Externals α) (flags : Flags)
    (classes : List String) (sample : Sample ε α) (line : String)
    (h : processSample ext flags classes sample = .ok line) :
    ∃ feats : List α,
      line = floatsToStr ext.formatFloat feats ++ "\n" ++ classesToStr classes sample := by
  unfold processSample at h
  split at h
  · exact nomatch h
  · simp only at h
    split at h
    · exact nomatch h
    · split at h
      · injection h with h
        exact ⟨_, h.symm⟩
      · split at h
        · exact nomatch h
        · injection h with h
          exact ⟨_, h.symm⟩

theorem floatsToStr_eq_join_map {α : Type u} (formatFloat : α → String) (data : List α) :
    floatsToStr formatFloat data = stringsJoin (data.map formatFloat) " " := by
  unfold floatsToStr
  rw [foldl_append_singleton, List.nil_append]

theorem floatsToStr_no_newline {α : Type u} (formatFloat : α → String)
    (hfmt : ∀ x, '\n' ∉ (formatFloat x).data) (data : List α) :
    '\n' ∉ (floatsToStr formatFloat data).data := by
  rw [floatsToStr_eq_join_map]
  intro h
  rcases mem_stringsJoin _ _ _ h with h1 | ⟨p, hp, hc⟩
  · exact absurd h1 (by decide)
  · rw [List.mem_map] at hp
    obtain ⟨x, _, rfl⟩ := hp
    exact hfmt x hc

theorem classesToStr_no_newline {ε : Type} {α : Type u} (classes : List String)
    (sample : Sample ε α) : '\n' ∉ (classesToStr classes sample).data := by
  rw [classesToStr_eq_join_map]
  intro h
  rcases mem_stringsJoin _ _ _ h with h1 | ⟨p, hp, hc⟩
  · exact absurd h1 (by decide)
  · rw [List.mem_map] at hp
    obtain ⟨c, _, rfl⟩ := hp
    by_cases hin : c ∈ sample.Classes
    · rw [if_pos hin] at hc
      exact absurd hc (by decide)
    · rw [if_neg hin] at hc
      exact absurd hc (by decide)

/-- C1 (as amended): every training example is printed as two lines. For every
sample, class list, flags and both modes, a string the worker sends to
`lineChan` is the feature text, one newline character and the class text; the
class text holds no newline and, `FormatFloat` emitting none, neither does the
feature text; so the string holds exactly one newline and `fmt.Println` writes
exactly two newline-terminated lines for the example. -/
theorem processSample_line_has_one_newline {ε : Type} {α : Type u} (ext : Externals α)
    (hfmt : ∀ x, '\n' ∉ (ext.formatFloat x).data) (flags : Flags)
    (classes : List String) (sample : Sample ε α) (line : String)
    (h : processSample ext flags classes sample = .ok line) :
    ∃ feats : String, line = feats ++ "\n" ++ classesToStr classes sample ∧
      '\n' ∉ feats.data ∧ '\n' ∉ (classesToStr classes sample).data ∧
      line.data.count '\n' = 1 ∧ (fmtPrintln line).data.count '\n' = 2 := by
  obtain ⟨feats, hline⟩ := processSample_line_form ext flags classes sample line h
  have h1 := floatsToStr_no_newline ext.formatFloat hfmt feats
  have h2 := classesToStr_no_newline classes sample
  have hc1 := List.count_eq_zero_of_not_mem h1
  have hc2 := List.count_eq_zero_of_not_mem h2
  refine ⟨_, hline, h1, h2, ?_, ?_⟩
  · rw [hline]
    simp only [String.data_append, List.count_append, hc1, hc2]
    rfl
  · unfold fmtPrintln
    rw [hline]
    simp only [String.data_append, List.count_append, hc1, hc2]
    rfl

theorem exampleExt_formatFloat_no_newline (x : Int) :
    '\n' ∉ (exampleExt.formatFloat x).data := by
  unfold exampleExt
  by_cases h : x = 0
  · simp only [if_pos h]; decide
  · simp only [if_neg h]; decide

/-- C1 (counterexample): in PCM mode and in MFCC mode the string sent to
`lineChan` for a sample contains a newline character. -/
theorem processSample_line_contains_newline :
    processSample exampleExt ⟨4, 1, false, false⟩ ["speech", "music"] exampleSample
      = .ok "0.5 0 0.5 0\n0 1" ∧
    '\n' ∈ ("0.5 0 0.5 0\n0 1" : String).data ∧
    processSample exampleExt ⟨4, 1, false, true⟩ ["speech", "music"] exampleSample
      = .ok "0.5 0 0.5\n0 1" ∧
    '\n' ∈ ("0.5 0 0.5\n0 1" : String).data :=
  ⟨rfl, by decide, rfl, by decide⟩

theorem processSample_line_has_one_newline_witness :
    (∀ x, '\n' ∉ (exampleExt.formatFloat x).data) ∧
    processSample exampleExt ⟨4, 1, false, false⟩ ["speech", "music"] exampleSample
      = .ok "0.5 0 0.5 0\n0 1" ∧
    ∃ feats : String,
      "0.5 0 0.5 0\n0 1" = feats ++ "\n" ++ classesToStr ["speech", "music"] exampleSample ∧
      '\n' ∉ feats.data ∧ '\n' ∉ (classesToStr ["speech", "music"] exampleSample).data ∧
      ("0.5 0 0.5 0\n0 1" : String).data.count '\n' = 1 ∧
      (fmtPrintln "0.5 0 0.5 0\n0 1").data.count '\n' = 2 :=
  ⟨exampleExt_formatFloat_no_newline, rfl,
    processSample_line_has_one_newline exampleExt exampleExt_formatFloat_no_newline
      ⟨4, 1, false, false⟩ ["speech", "music"] exampleSample "0.5 0 0.5 0\n0 1" rfl⟩

/-- C7 (counterexample): with `-align 0` in PCM mode the read succeeds, yet the
processing ends in the divide-by-zero panic of `len(data)%align` and produces
no output line. -/
theorem processSample_align_zero_no_line :
    exampleSample.Read = .ok [1, 0, 1] ∧
    processSample exampleExt ⟨0, 1, false, false⟩ ["speech", "music"] exampleSample
      = .error (.panic .divideByZero) ∧
    ¬ ∃ line, processSample exampleExt ⟨0, 1, false, false⟩ ["speech", "music"] exampleSample
      = .ok line := by
  refine ⟨rfl, rfl, ?_⟩
  rintro ⟨line, h⟩
  have h2 : processSample exampleExt ⟨0, 1, false, false⟩ ["speech", "music"] exampleSample
      = .error (.panic .divideByZero) := rfl
  rw [h2] at h
  exact nomatch h

/-- C7 (as amended): the pipeline aborts on the first error. Whenever
`sample.Read` returns an error the processing returns that error and no output
line. Whenever `sample.Read` succeeds the processing produces exactly one
output string in MFCC mode; in PCM mode it produces one exactly when
`downsample` and the padding step complete without a run-time panic, which
they do when `stride ≥ 1`, `align ≥ 1`, `len(data)+(stride-1)` stays in the
`int` range, the waveform is a Go slice (at most `maxAlloc` bytes) and the
vector to pad together with `align` more values is within the size limit of
one allocation. In every case a successful read ends in one output string or
in a run-time panic, never in a read error. -/
theorem processSample_abort_on_read_error {ε : Type} {α : Type u} (ext : Externals α)
    (flags : Flags) (classes : List String) (sample : Sample ε α) :
    (∀ err, sample.Read = .error err →
      processSample ext flags classes sample = .error (.die err) ∧
      ¬ ∃ line, processSample ext flags classes sample = .ok line) ∧
    (∀ data, sample.Read = .ok data → flags.useMFCC = true →
      ∃ line, processSample ext flags classes sample = .ok line) ∧
    (∀ data, sample.Read = .ok data → flags.useMFCC = false →
      ((∃ line, processSample ext flags classes sample = .ok line) ↔
        ∃ sampled padded, downsample ext.zero data flags.stride = .ok sampled ∧
          padStep ext.zero (if flags.augment then ext.augment sampled else sampled) flags.align
            = .ok padded)) ∧
    (∀ data, sample.Read = .ok data → flags.useMFCC = false →
      1 ≤ flags.stride → goLen data + (flags.stride - 1) ≤ maxInt →
      float64Size * goLen data ≤ maxAlloc → 1 ≤ flags.align →
      (∀ sampled, downsample ext.zero data flags.stride = .ok sampled →
        float64Size *
            (goLen (if flags.augment then ext.augment sampled else sampled) + flags.align)
          ≤ maxAlloc) →
      ∃ line, processSample ext flags classes sample = .ok line) ∧
    (∀ data, sample.Read = .ok data →
      (∃ line, processSample ext flags classes sample = .ok line) ∨
      (∃ p, processSample ext flags classes sample = .error (.panic p))) := by
  refine ⟨?_, ?_, ?_, ?_, ?_⟩
  · intro err herr
    have h := processSample_read_error ext flags classes sample err herr
    refine ⟨h, ?_⟩
    rintro ⟨line, hl⟩
    rw [h] at hl
    exact nomatch hl
  · intro data hdata hm
    exact ⟨_, processSample_mfcc_ok ext flags classes sample data hdata hm⟩
  · intro data hdata hm
    exact processSample_pcm_ok_iff ext flags classes sample data hdata hm
  · intro data hdata hm hs hov hsl ha1 hfit
    exact processSample_pcm_ok ext flags classes sample data hdata hm hs hov hsl ha1 hfit
  · intro data hdata
    exact processSample_read_ok_cases ext flags classes sample data hdata

theorem processSample_abort_on_read_error_witness :
    (processSample exampleExt ⟨4, 2, true, false⟩ ["speech", "music"]
        (⟨["music"], .error "no such file"⟩ : Sample String Int)
      = .error (.die "no such file")) ∧
    (∃ line, processSample exampleExt ⟨0, 0, true, true⟩ ["speech", "music"] exampleSample
      = .ok line) ∧
    (∃ line, processSample exampleExt ⟨4, 2, true, false⟩ ["speech", "music"] exampleSample
      = .ok line) ∧
    processSample exampleExt ⟨4, 2, true, false⟩ ["speech", "music"] exampleSample
      = .ok "0.5 0.5 0 0\n0 1" :=
  ⟨((processSample_abort_on_read_error exampleExt ⟨4, 2, true, false⟩ ["speech", "music"]
        (⟨["music"], .error "no such file"⟩ : Sample String Int)).1 "no such file" rfl).1,
    (processSample_abort_on_read_error exampleExt ⟨0, 0, true, true⟩ ["speech", "music"]
        exampleSample).2.1 [1, 0, 1] rfl rfl,
    (processSample_abort_on_read_error exampleExt ⟨4, 2, true, false⟩ ["speech", "music"]
        exampleSample).2.2.2.1 [1, 0, 1] rfl rfl (by decide) (by decide) (by decide) (by decide)
      (fun sampled hds => by
        have h2 : downsample exampleExt.zero [1, 0, 1] 2 = .ok [1, 1] := rfl
        rw [h2] at hds
        injection hds with hds
        subst hds
        decide),
    rfl⟩

end Audioclass
